import Mathlib

/-!
Verification of the natural-language specification of `gbmt-splits`
(`src/gbmtsplits/split.py`) against a shallow embedding of the code.

Conventions of the embedding:
* pandas/numpy floats are modelled as `ℚ`; a missing value (NaN) is `none`
  in an `Option ℚ` cell.
* A dataframe is an ordered association list of named columns (`Frame`).
* A Python float `x` satisfies `x % 1 == 0` exactly when it is integral,
  modelled by `Rat.den = 1`.
* `pandas.Series.unique` (distinct values in order of first appearance) is
  `pyUnique`; `str.startswith` is `pyStartswith`; Python's stable `sorted`
  on pairs is `List.insertionSort` with the lexicographic order `tupleLe`.
* The CBC solver is external: it is modelled as an oracle producing values
  for the binary variables `x_0 .. x_{N*S-1}` of the model the code builds.
* Exceptions (`ValueError`, `max` of an empty sequence) are modelled with
  `Except` / `Option` results.
-/

namespace GbmtSplits

/-- A dataframe cell: a numeric value or missing (NaN). -/
abbrev Cell := Option ℚ

/-- A dataframe: ordered list of named columns (`split.py` keeps the data in
`self.df`). -/
structure Frame where
  cols : List (String × List Cell)
deriving DecidableEq

/-- Column names of a frame (`df.columns.tolist()`). -/
def Frame.names (f : Frame) : List String := f.cols.map Prod.fst

/-- Read a column by name (`df[name]`); missing column reads as `[]`. -/
def Frame.getCol (f : Frame) (name : String) : List Cell :=
  match f.cols.find? (fun p => p.1 = name) with
  | some p => p.2
  | none => []

/-- Assign a column (`df[name] = col`): replace it if present, else append it. -/
def Frame.setCol (f : Frame) (name : String) (col : List Cell) : Frame :=
  if name ∈ f.names then
    ⟨f.cols.map (fun p => if p.1 = name then (p.1, col) else p)⟩
  else ⟨f.cols ++ [(name, col)]⟩

/-- Number of rows of the frame. -/
def Frame.rowCount (f : Frame) : ℕ :=
  match f.cols with
  | [] => 0
  | p :: _ => p.2.length

/-- `df.drop(names, axis=1)`: remove every column whose name is listed. -/
def Frame.dropCols (f : Frame) (names : List String) : Frame :=
  ⟨f.cols.filter (fun p => p.1 ∉ names)⟩

/-- `Series.dropna()`: the non-missing values of a column, in order. -/
def dropna (col : List Cell) : List ℚ := col.filterMap id

/-- Python `x % 1 == 0` on a float: the value is integral. -/
def isIntegralQ (x : ℚ) : Bool := x.den == 1

/-- `pandas.Series.unique()`: distinct values in order of first appearance. -/
def pyUnique {α : Type} [DecidableEq α] (l : List α) : List α :=
  l.foldl (fun acc x => if x ∈ acc then acc else acc ++ [x]) []

/-- Python `s.startswith(p)`: `p` is a prefix of `s`. -/
def pyStartswith (s p : String) : Bool := decide (s.data.take p.data.length = p.data)

/-- `_set_original_tasks` for `tasks is None` (split.py lines 227-238):
drop the SMILES column, the ignored columns, and columns starting with
`'Split'` or `'MinIntersetDistance'`. -/
def setOriginalTasks (columns : List String) (smilesColumn : String)
    (ignoreColumns : Option (List String)) : List String :=
  let c1 := columns.erase smilesColumn
  let c2 := match ignoreColumns with
    | none => c1
    | some ig => c1.filter (fun c => c ∉ ig)
  let c3 := c2.filter (fun c => !(pyStartswith c "Split"))
  c3.filter (fun c => !(pyStartswith c "MinIntersetDistance"))

/-- The split column name of iteration `k` (split.py lines 119-124). -/
def splitColName (nSplits k : ℕ) : String :=
  if nSplits = 1 then "Split" else "Split_" ++ toString k

/-- The minimum inter-set distance column name of iteration `k`
(split.py lines 119-124). -/
def mintdColName (nSplits k : ℕ) : String :=
  if nSplits = 1 then "minInterSetTd" else "minInterSetTd_" ++ toString k

/-- The per-class derived balancing column of `_set_tasks_for_balancing`
(split.py line 255): `(df[task] == cls).map({True: 1, False: np.nan})`.
In pandas, a missing parent cell compares unequal to `cls`, hence maps to
`False` and then to NaN. -/
def deriveClassCol (col : List Cell) (cls : ℚ) : List Cell :=
  col.map (fun cell => if cell = some cls then some 1 else none)

/-- `_set_tasks_for_balancing` (split.py lines 242-258): a task all of whose
non-missing values are integral is expanded into one derived column per
observed class; any other task is kept unchanged as a regression task.
Returns the updated frame and the list of balancing task names. -/
def setTasksForBalancing (df : Frame) (originalTasks : List String) :
    Frame × List String :=
  originalTasks.foldl
    (fun acc task =>
      let col := acc.1.getCol task
      if (dropna col).all isIntegralQ then
        (pyUnique (dropna col)).foldl
          (fun acc2 cls =>
            (acc2.1.setCol (task ++ "_" ++ toString cls) (deriveClassCol col cls),
             acc2.2 ++ [task ++ "_" ++ toString cls]))
          acc
      else (acc.1, acc.2 ++ [task]))
    (df, [])

/-- Count of non-missing values of a column restricted to given row indices
(`df.iloc[indices][task].dropna().shape[0]`). -/
def countNonMissing (col : List Cell) (idx : List ℕ) : ℕ :=
  ((idx.map (fun i => col.getD i none)).filterMap id).length

/-- `_compute_tasks_per_cluster` (split.py lines 180-211): row 0 holds the
cluster cardinalities, row `i+1` the per-cluster non-missing counts of the
`i`-th balancing task. -/
def computeTasksPerCluster (df : Frame) (tasks : List String)
    (clusters : List (List ℕ)) : List (List ℚ) :=
  (clusters.map (fun idx => (idx.length : ℚ))) ::
    tasks.map (fun t => clusters.map (fun idx => (countNonMissing (df.getCol t) idx : ℚ)))

/-! ## The MILP model built by `_merge_clusters_with_balancing_mapping` -/

/-- A pulp variable of the model: `x_i` are the binary assignment indicators,
`X_i` the continuous non-negative slack variables (split.py lines 352-358). -/
inductive LpVar
  | x (i : ℕ)
  | X (i : ℕ)
deriving DecidableEq

/-- A linear constraint of the model. -/
inductive LpConstr
  | le (terms : List (LpVar × ℚ)) (rhs : ℚ)
  | ge (terms : List (LpVar × ℚ)) (rhs : ℚ)
  | eq (terms : List (LpVar × ℚ)) (rhs : ℚ)
deriving DecidableEq

/-- The affine terms of a constraint. -/
def LpConstr.terms : LpConstr → List (LpVar × ℚ)
  | .le ts _ => ts
  | .ge ts _ => ts
  | .eq ts _ => ts

/-- `sizes / np.sum(sizes)` (split.py line 313). -/
def fractionalSizes (sizes : List ℚ) : List ℚ :=
  sizes.map (fun s => s / sizes.sum)

/-- Row normalisation of the tasks-vs-clusters array (split.py line 318):
each row is divided by its own sum. -/
def normalizeRows (table : List (List ℚ)) : List (List ℚ) :=
  table.map (fun row => row.map (fun a => a / row.sum))

/-- The unnormalised task weights WT (split.py lines 339-342). -/
def objWeightsRaw (M : ℕ) (flag : Bool) : List ℚ :=
  if 1 < M ∧ flag = false then ((M : ℚ) - 1) :: List.replicate (M - 1) 1
  else List.replicate M 1

/-- The task weights after normalisation (split.py line 344). -/
def objWeights (M : ℕ) (flag : Bool) : List ℚ :=
  (objWeightsRaw M flag).map (fun w => w / (objWeightsRaw M flag).sum)

/-- The harmonic subset weights WML (split.py line 347):
`(1 / fractional_sizes) / np.sum(1 / fractional_sizes)`. -/
def skHarmonic (fracs : List ℚ) : List ℚ :=
  (fracs.map (fun f => 1 / f)).map (fun v => v / (fracs.map (fun f => 1 / f)).sum)

/-- The objective terms (split.py lines 362-369): for `m` over subsets and
`t` over task rows, the variable `X_(m*M+t)` with coefficient
`sk_harmonic[m] * obj_weights[t]`. -/
def objectiveTerms (M S : ℕ) (skH objW : List ℚ) : List (LpVar × ℚ) :=
  (List.range S).flatMap (fun m =>
    (List.range M).map (fun t => (LpVar.X (m * M + t), skH.getD m 0 * objW.getD t 0)))

/-- The assignment constraints (split.py lines 374-375): for every cluster
`c`, the indicators `x_(c+m*N)` over subsets `m` sum to one. -/
def clusterConstraints (N S : ℕ) : List LpConstr :=
  (List.range N).map (fun c =>
    .eq ((List.range S).map (fun m => (LpVar.x (c + m * N), (1 : ℚ)))) 1)

/-- The absolute-value linearisation constraints (split.py lines 378-382):
for every subset `m` and task row `t`, with `cs` the clusters where row `t`
is non-zero,
`Σ_c A[t,c]·x_(c+m*N) - X_t ≤ fractional_sizes[m]` and
`Σ_c A[t,c]·x_(c+m*N) + X_t ≥ fractional_sizes[m]`.
Note the code indexes the slack variable as `X[t]`, not `X[m*M+t]`. -/
def absConstraints (A : List (List ℚ)) (fracs : List ℚ) (M S N : ℕ) :
    List LpConstr :=
  (List.range S).flatMap (fun m =>
    (List.range M).flatMap (fun t =>
      let row := A.getD t []
      let cs := (List.range N).filter (fun c => row.getD c 0 ≠ 0)
      let body := cs.map (fun c => (LpVar.x (c + m * N), row.getD c 0))
      [ .le (body ++ [(LpVar.X t, -1)]) (fracs.getD m 0),
        .ge (body ++ [(LpVar.X t, 1)]) (fracs.getD m 0) ]))

/-- The full pulp model of `_merge_clusters_with_balancing_mapping`
(split.py lines 311-382). -/
structure LpModel where
  nBinary : ℕ
  nSlack : ℕ
  objective : List (LpVar × ℚ)
  constraints : List LpConstr
deriving DecidableEq

/-- Build the model exactly as the code does (split.py lines 311-382). -/
def mergeModel (table : List (List ℚ)) (sizes : List ℚ) (flag : Bool) : LpModel :=
  let fracs := fractionalSizes sizes
  let S := sizes.length
  let A := normalizeRows table
  let M := A.length
  let N := (A.headD []).length
  { nBinary := N * S
    nSlack := M * S
    objective := objectiveTerms M S (skHarmonic fracs) (objWeights M flag)
    constraints := clusterConstraints N S ++ absConstraints A fracs M S N }

/-! ## Solution decoding (split.py lines 389-396) -/

/-- `list(range(N)) * S`: the gather list for initial cluster indices. -/
def pyTile (N S : ℕ) : List ℕ := (List.replicate S (List.range N)).flatten

/-- `list((1 + np.repeat(range(S), N)).astype('int64'))`: the gather list
for 1-indexed final subset ids. -/
def npRepeatSubsets (S N : ℕ) : List ℕ :=
  (List.range S).flatMap (fun m => List.replicate N (1 + m))

/-- `[value(x[i]) for i in range(N * S)]`. -/
def listBinarySolution (N S : ℕ) (sol : ℕ → ℚ) : List ℚ :=
  (List.range (N * S)).map sol

/-- The enumerated solution entries with value 1 (the `if l == 1` filter in
the comprehensions of split.py lines 392-393). -/
def selectedPairs (N S : ℕ) (sol : ℕ → ℚ) : List (ℕ × ℚ) :=
  (listBinarySolution N S sol).enum.filter (fun p => p.2 = 1)

/-- `list_initial_cluster_indices` (split.py line 392). -/
def listInitialClusterIndices (N S : ℕ) (sol : ℕ → ℚ) : List ℕ :=
  (selectedPairs N S sol).map (fun p => (pyTile N S).getD p.1 0)

/-- `list_final_ML_subsets` (split.py line 393). -/
def listFinalMLSubsets (N S : ℕ) (sol : ℕ → ℚ) : List ℕ :=
  (selectedPairs N S sol).map (fun p => (npRepeatSubsets S N).getD p.1 0)

/-- Lexicographic order on pairs, as Python's `sorted` compares tuples. -/
def tupleLe : ℕ × ℕ → ℕ × ℕ → Prop :=
  fun p q => p.1 < q.1 ∨ (p.1 = q.1 ∧ p.2 ≤ q.2)

instance : DecidableRel tupleLe := fun p q => by
  unfold tupleLe; infer_instance

instance : IsTotal (ℕ × ℕ) tupleLe :=
  ⟨fun p q => by
    unfold tupleLe
    rcases Nat.lt_trichotomy p.1 q.1 with h | h | h
    · exact Or.inl (Or.inl h)
    · rcases Nat.le_total p.2 q.2 with h2 | h2
      · exact Or.inl (Or.inr ⟨h, h2⟩)
      · exact Or.inr (Or.inr ⟨h.symm, h2⟩)
    · exact Or.inr (Or.inl h)⟩

instance : IsTrans (ℕ × ℕ) tupleLe :=
  ⟨fun p q r hpq hqr => by
    unfold tupleLe at *
    rcases hpq with h1 | ⟨e1, l1⟩
    · rcases hqr with h2 | ⟨e2, l2⟩
      · exact Or.inl (h1.trans h2)
      · exact Or.inl (e2 ▸ h1)
    · rcases hqr with h2 | ⟨e2, l2⟩
      · exact Or.inl (e1 ▸ h2)
      · exact Or.inr ⟨e1.trans e2, l1.trans l2⟩⟩

instance : IsAntisymm (ℕ × ℕ) tupleLe :=
  ⟨fun p q hpq hqp => by
    unfold tupleLe at *
    rcases hpq with h1 | ⟨e1, l1⟩
    · rcases hqp with h2 | ⟨e2, l2⟩
      · exact absurd (h1.trans h2) (lt_irrefl _)
      · exact absurd h1 (e2 ▸ lt_irrefl _)
    · rcases hqp with h2 | ⟨e2, l2⟩
      · exact absurd h2 (e1 ▸ lt_irrefl _)
      · exact Prod.ext e1 (le_antisymm l1 l2)⟩

/-- `mapping = [x for _, x in sorted(zip(initial, final))]`
(split.py line 394), with Python's `sorted` modelled by a stable sort under
the lexicographic tuple order. -/
def extractMapping (N S : ℕ) (sol : ℕ → ℚ) : List ℕ :=
  ((((listInitialClusterIndices N S sol).zip (listFinalMLSubsets N S sol)).insertionSort
      tupleLe).map Prod.snd)

/-- `_merge_clusters_with_balancing_mapping` (split.py lines 260-396):
check `S ≤ N`, build the model, run the solver, decode the mapping.
The solver oracle returns the values of the binary variables. -/
def mergeClustersWithBalancingMapping (solver : LpModel → ℕ → ℚ)
    (table : List (List ℚ)) (sizes : List ℚ) (flag : Bool) :
    Except String (List ℕ) :=
  let S := sizes.length
  let N := ((normalizeRows table).headD []).length
  if S > N then
    .error "The requested number of new clusters to make cannot be larger than the initial number of clusters."
  else
    let sol := solver (mergeModel table sizes flag)
    .ok (extractMapping N S sol)

/-! ## Writing the split assignment (split.py lines 151-152) -/

/-- Write `val r` at each listed position of a list (`df.loc[idx, col] = v`
sets all listed rows; the generic value function also serves the distance
computation below). -/
def setFoldVal {α : Type} (arr : List α) (idx : List ℕ) (val : ℕ → α) : List α :=
  idx.foldl (fun acc r => acc.set r (val r)) arr

/-- The split-assignment column produced by
`for i, idx in clusters.items(): df.loc[idx, split_name] = mapping[i] - 1`:
rows of cluster `i` receive `mapping[i] - 1`; the column starts as
all-missing (a fresh pandas column). -/
def writeSplitColumn (nRows : ℕ) (clusters : List (List ℕ)) (mapping : List ℕ) :
    List Cell :=
  clusters.enum.foldl
    (fun acc p => setFoldVal acc p.2 (fun _ => some ((mapping.getD p.1 0 : ℚ) - 1)))
    (List.replicate nRows none)

/-! ## `_compute_min_interset_Tanimoto_distances` (split.py lines 398-445) -/

/-- `ref_idx` of split.py line 430: the row indices whose split value is `j`. -/
def refIdxOf (split : List ℚ) (j : ℚ) : List ℕ :=
  (List.range split.length).filter (fun i => split.getD i 0 = j)

/-- `other_fps` of split.py line 431: all row indices not in `ref_idx`. -/
def othersOf (split : List ℚ) (j : ℚ) : List ℕ :=
  (List.range split.length).filter (fun i => i ∉ refIdxOf split j)

/-- The inner loop body of split.py lines 432-434: compare row `i` to the
reference pool and store `1 - max(sims)`; Python's `max` of an empty
sequence raises, modelled as `none`. -/
def mdInnerStep (others : List ℕ) (sim : ℕ → ℕ → ℚ) (acc2 : Option (List ℚ)) (i : ℕ) :
    Option (List ℚ) :=
  match acc2 with
  | none => none
  | some arr2 =>
    match (others.map (fun k => sim i k)).max? with
    | none => none
    | some mx => some (arr2.set i (1 - mx))

/-- One iteration of the loop over subset values (split.py lines 429-434). -/
def mdOuterStep (split : List ℚ) (sim : ℕ → ℕ → ℚ) (acc : Option (List ℚ)) (j : ℚ) :
    Option (List ℚ) :=
  match acc with
  | none => none
  | some arr => (refIdxOf split j).foldl (mdInnerStep (othersOf split j) sim) (some arr)

/-- The per-row minimum inter-subset Tanimoto distance column
(split.py lines 426-434): starting from `np.zeros(len(fps))`, for each
subset value `j` (in order of first appearance) the rows of that subset
are compared against all other rows and receive `1 - max(sims)`. `sim` is
the external pairwise Tanimoto similarity on row indices. -/
def computeMinInterSetTanimotoDistances (split : List ℚ) (sim : ℕ → ℕ → ℚ) :
    Option (List ℚ) :=
  (pyUnique split).foldl (mdOuterStep split sim) (some (List.replicate split.length 0))

/-! ## The orchestrator `__call__` (split.py lines 70-177) -/

/-- The clustering strategies shipped with the package. -/
inductive ClusteringMethod
  | maxMin
  | leaderPicker
  | murckoScaffold
  | random
deriving DecidableEq

/-- Which strategies `__call__` accepts for `n_splits > 1`
(split.py lines 102-103: `MaxMinClustering` or `RandomClustering`) —
the strategies that support deterministic re-seeding. -/
def ClusteringMethod.reseedable : ClusteringMethod → Bool
  | .maxMin => true
  | .random => true
  | _ => false

/-- Exactly one of precomputed clusters and a clustering strategy is
supplied (enforced by `__init__`, split.py lines 55-58). -/
inductive ClusterSource
  | precomputed (cs : List (List ℕ))
  | strategy (m : ClusteringMethod)
deriving DecidableEq

/-- The splitter configuration (`__init__` attributes). -/
structure Config where
  sizes : List ℚ
  source : ClusterSource
  nSplits : ℕ
  equalWeight : Bool
  minDistance : Bool
deriving DecidableEq

/-- The error exits of `__call__` and of the merge / distance steps. -/
inductive SplitError
  | multiSplitPrecomputed
  | multiSplitMethod (m : ClusteringMethod)
  | tooManySubsets
  | emptyReference
deriving DecidableEq

/-- Observable work performed by a call, in order. -/
inductive Effect
  | clusterE
  | tabulateE
  | solveE
  | writeE
  | distE
deriving DecidableEq

/-- Result of a call: the effect trace, the outcome, and the caller's
dataframe after the call (the code copies `data` on entry, split.py
line 107, and mutates only the copy). -/
structure CallResult where
  trace : List Effect
  result : Except SplitError Frame
  caller : Frame

/-- The guard at the top of `__call__` (split.py lines 98-105). -/
def multiSplitCheck (cfg : Config) : Option SplitError :=
  if 1 < cfg.nSplits then
    match cfg.source with
    | .precomputed _ => some .multiSplitPrecomputed
    | .strategy m => if m.reseedable then none else some (.multiSplitMethod m)
  else none

/-- The original task list (split.py line 112 / lines 217-240). -/
def originalTasksOf (data : Frame) (smilesColumn : String)
    (tasks ignoreColumns : Option (List String)) : List String :=
  match tasks with
  | none => setOriginalTasks data.names smilesColumn ignoreColumns
  | some ts => ts

/-- One iteration of the split loop (split.py lines 117-170): obtain
clusters, tabulate, merge via the MILP, write the split column, and
optionally the distance column. `runMethod m k` is the external clustering
strategy invoked at iteration `k` (the seed is advanced by one between
iterations). -/
def runIteration (runMethod : ClusteringMethod → ℕ → List (List ℕ))
    (solver : LpModel → ℕ → ℚ) (sim : ℕ → ℕ → ℚ) (cfg : Config)
    (balancing : List String) (k : ℕ) (df : Frame) :
    List Effect × Except SplitError Frame :=
  let (clusters, eff0) :=
    match cfg.source with
    | .precomputed cs => (cs, ([] : List Effect))
    | .strategy m => (runMethod m k, [Effect.clusterE])
  let table := computeTasksPerCluster df balancing clusters
  let effs := eff0 ++ [Effect.tabulateE]
  match mergeClustersWithBalancingMapping solver table cfg.sizes cfg.equalWeight with
  | .error _ => (effs, .error .tooManySubsets)
  | .ok mapping =>
    let sname := splitColName cfg.nSplits k
    let col := writeSplitColumn df.rowCount clusters mapping
    let df1 := df.setCol sname col
    let effs2 := effs ++ [Effect.solveE, Effect.writeE]
    if cfg.minDistance then
      match computeMinInterSetTanimotoDistances (col.map (fun c => c.getD 0)) sim with
      | none => (effs2 ++ [Effect.distE], .error .emptyReference)
      | some ds =>
        (effs2 ++ [Effect.distE],
         .ok (df1.setCol (mintdColName cfg.nSplits k) (ds.map some)))
    else (effs2, .ok df1)

/-- One step of the fold over split iterations: on an error the loop has
already aborted (an exception propagates); otherwise run the iteration and
accumulate its trace. -/
def runStep (runMethod : ClusteringMethod → ℕ → List (List ℕ))
    (solver : LpModel → ℕ → ℚ) (sim : ℕ → ℕ → ℚ) (cfg : Config)
    (balancing : List String)
    (acc : List Effect × Except SplitError Frame) (k : ℕ) :
    List Effect × Except SplitError Frame :=
  match acc with
  | (tr, .error e) => (tr, .error e)
  | (tr, .ok df) =>
    let r := runIteration runMethod solver sim cfg balancing k df
    (tr ++ r.1, r.2)

/-- `__call__` (split.py lines 70-177): the multi-split guard, the copy of
the caller's dataframe, task preprocessing, the split iterations, and the
final drop of the synthetic balancing columns. -/
def runCall (runMethod : ClusteringMethod → ℕ → List (List ℕ))
    (solver : LpModel → ℕ → ℚ) (sim : ℕ → ℕ → ℚ) (cfg : Config)
    (data : Frame) (smilesColumn : String)
    (tasks ignoreColumns : Option (List String)) : CallResult :=
  match multiSplitCheck cfg with
  | some e => ⟨[], .error e, data⟩
  | none =>
    match (List.range cfg.nSplits).foldl
        (runStep runMethod solver sim cfg
          (setTasksForBalancing data
            (originalTasksOf data smilesColumn tasks ignoreColumns)).2)
        ([], .ok (setTasksForBalancing data
          (originalTasksOf data smilesColumn tasks ignoreColumns)).1) with
    | (tr, .error e) => ⟨tr, .error e, data⟩
    | (tr, .ok df) =>
      ⟨tr, .ok (df.dropCols
        ((setTasksForBalancing data
            (originalTasksOf data smilesColumn tasks ignoreColumns)).2.filter
          (fun c => c ∉ originalTasksOf data smilesColumn tasks ignoreColumns))), data⟩

/-! ## Spec-side weight formulas (claims C1/C2), written from the spec text -/

/-- Claim formula: `subset_weight[s] = (1/fractional_sizes[s]) / Σ (1/fractional_sizes)`. -/
def subsetWeightSpec (fracs : List ℚ) (s : ℕ) : ℚ :=
  (1 / fracs.getD s 0) / (fracs.map (fun f => 1 / f)).sum

/-- Claim formula for the task weights: with the equal-weighting flag set,
every row weighs `1/M`; otherwise (for `M > 1`) the row-count row weighs
`M-1` and each other row `1`, normalised to sum to 1 (total `2(M-1)`). -/
def taskWeightSpec (flag : Bool) (M t : ℕ) : ℚ :=
  if flag then 1 / (M : ℚ)
  else if 1 < M then (if t = 0 then (M : ℚ) - 1 else 1) / (2 * ((M : ℚ) - 1))
  else 1 / (M : ℚ)

/-- All `LpVar`s occurring in the terms of a list of constraints. -/
def constraintVars (cs : List LpConstr) : List LpVar :=
  cs.flatMap (fun c => c.terms.map Prod.fst)

/-- The indices of the slack variables `X_i` occurring in a list of
constraints, in order. -/
def slackIndicesOf (cs : List LpConstr) : List ℕ :=
  cs.flatMap (fun c => c.terms.filterMap (fun p =>
    match p.1 with
    | LpVar.X i => some i
    | _ => none))

lemma length_skHarmonic (fracs : List ℚ) : (skHarmonic fracs).length = fracs.length := by
  simp [skHarmonic]

lemma skHarmonic_getD (fracs : List ℚ) (s : ℕ) (hs : s < fracs.length) :
    (skHarmonic fracs).getD s 0 = subsetWeightSpec fracs s := by
  have hs1 : s < ((fracs.map (fun f => 1 / f)).map
      (fun v => v / (fracs.map (fun f => 1 / f)).sum)).length := by
    simpa using hs
  have hs2 : s < (fracs.map (fun f => 1 / f)).length := by simpa using hs
  rw [skHarmonic, List.getD_eq_getElem _ _ hs1, List.getElem_map, List.getElem_map,
    subsetWeightSpec, List.getD_eq_getElem _ _ hs]

lemma length_objWeightsRaw (M : ℕ) (flag : Bool) (hM : 0 < M) :
    (objWeightsRaw M flag).length = M := by
  unfold objWeightsRaw
  split
  · simp; omega
  · simp

lemma sum_objWeightsRaw_replicate (M : ℕ) :
    (List.replicate M (1 : ℚ)).sum = (M : ℚ) := by
  simp [List.sum_replicate]

lemma sum_objWeightsRaw_cons (M : ℕ) (hM : 1 < M) :
    (((M : ℚ) - 1) :: List.replicate (M - 1) (1 : ℚ)).sum = 2 * ((M : ℚ) - 1) := by
  have hcast : ((M - 1 : ℕ) : ℚ) = (M : ℚ) - 1 := by
    have : (1 : ℕ) ≤ M := le_of_lt hM
    push_cast [this]
    ring
  simp [List.sum_replicate, hcast]
  ring

lemma objWeights_getD (M : ℕ) (flag : Bool) (t : ℕ) (ht : t < M) :
    (objWeights M flag).getD t 0 = taskWeightSpec flag M t := by
  cases flag with
  | true =>
    have hraw : objWeightsRaw M true = List.replicate M 1 := by
      unfold objWeightsRaw; simp
    have ht3 : t < ((List.replicate M (1 : ℚ)).map (fun w => w / (M : ℚ))).length := by
      simpa using ht
    rw [objWeights, hraw, sum_objWeightsRaw_replicate, List.getD_eq_getElem _ _ ht3,
      List.getElem_map, List.getElem_replicate]
    simp [taskWeightSpec]
  | false =>
    by_cases hM1 : 1 < M
    · have hraw : objWeightsRaw M false = ((M : ℚ) - 1) :: List.replicate (M - 1) 1 := by
        unfold objWeightsRaw; simp [hM1]
      rw [objWeights, hraw, sum_objWeightsRaw_cons M hM1]
      rcases t with _ | t
      · simp [taskWeightSpec, hM1]
      · have htr : t < M - 1 := by omega
        have ht3 : t + 1 < ((((M : ℚ) - 1) :: List.replicate (M - 1) 1).map
            (fun w => w / (2 * ((M : ℚ) - 1)))).length := by simp; omega
        rw [List.getD_eq_getElem _ _ ht3, List.getElem_map]
        simp [taskWeightSpec, hM1, htr]
    · have hM1e : M = 1 := by omega
      subst hM1e
      have ht0 : t = 0 := by omega
      subst ht0
      simp [objWeights, objWeightsRaw, taskWeightSpec]

/-- C2: the balancer's objective is
`Σ_s Σ_t subset_weight[s] · task_weight[t] · X[t,s]` with
`subset_weight[s] = (1/fractional_sizes[s]) / Σ (1/fractional_sizes)` and the
task weights as claimed: under the equal-weighting flag every row weighs
`1/M`; otherwise with more than one table row the row-count row weighs `M-1`
and every other row weighs `1`, normalised to sum to 1. The slack variable
for (task row `t`, subset `s`) is the one the model creates at linear index
`s*M + t`. -/
theorem objective_matches_spec_weights (table : List (List ℚ)) (sizes : List ℚ)
    (flag : Bool) :
    (mergeModel table sizes flag).objective =
      (List.range sizes.length).flatMap (fun s =>
        (List.range table.length).map (fun t =>
          (LpVar.X (s * table.length + t),
            subsetWeightSpec (fractionalSizes sizes) s * taskWeightSpec flag table.length t))) := by
  have hMlen : (normalizeRows table).length = table.length := by simp [normalizeRows]
  have hflen : (fractionalSizes sizes).length = sizes.length := by simp [fractionalSizes]
  show objectiveTerms (normalizeRows table).length sizes.length
      (skHarmonic (fractionalSizes sizes)) (objWeights (normalizeRows table).length flag) = _
  rw [hMlen]
  unfold objectiveTerms
  apply congrArg List.flatten
  apply List.map_congr_left
  intro m hm
  apply List.map_congr_left
  intro t ht
  rw [List.mem_range] at hm ht
  rw [skHarmonic_getD _ _ (by omega), objWeights_getD _ _ _ ht]

/-- C9: determinism of the balancer. If the MILP solver is deterministic
(its output on a model is unique), two runs of
`_merge_clusters_with_balancing_mapping` on the same tasks-vs-clusters
table, target sizes and weighting flag return the same mapping. -/
theorem balancer_deterministic (Sol : LpModel → (ℕ → ℚ) → Prop)
    (hdet : ∀ mdl u v, Sol mdl u → Sol mdl v → u = v)
    (solver1 solver2 : LpModel → ℕ → ℚ)
    (hs1 : ∀ mdl, Sol mdl (solver1 mdl)) (hs2 : ∀ mdl, Sol mdl (solver2 mdl))
    (table : List (List ℚ)) (sizes : List ℚ) (flag : Bool) :
    mergeClustersWithBalancingMapping solver1 table sizes flag =
      mergeClustersWithBalancingMapping solver2 table sizes flag := by
  unfold mergeClustersWithBalancingMapping
  have heq : solver1 (mergeModel table sizes flag) = solver2 (mergeModel table sizes flag) :=
    hdet _ _ _ (hs1 _) (hs2 _)
  rw [heq]

/-- Witness for C9: a concrete deterministic solver relation, two solver
functions implementing it, and a concrete table. -/
theorem balancer_deterministic_witness :
    mergeClustersWithBalancingMapping (fun _ _ => 0) [[1, 1]] [1] true =
      mergeClustersWithBalancingMapping (fun _ _ => 0) [[1, 1]] [1] true :=
  balancer_deterministic (fun _ s => s = fun _ => 0)
    (fun _ u v hu hv => hu.trans hv.symm)
    (fun _ _ => 0) (fun _ _ => 0) (fun _ => rfl) (fun _ => rfl) [[1, 1]] [1] true

/-- C1 (code evaluation at the failing input): for the one-row table
`[[1,1]]` with sizes `[1,1]` (so `M = 1`, `S = 2`, `N = 2`), the model
creates `M*S = 2` slack variables, but all four absolute-value constraints
— the pair for subset 0 AND the pair for subset 1 — reference the same
slack variable `X_0`, and the second slack variable `X_1` occurs in the
objective yet in no constraint. The constraints therefore do not give each
(task row, subset) pair its own slack variable: the code indexes the slack
as `X[t]` where the comment and the objective use `X[m*M+t]`. -/
theorem slack_variable_shared_across_subsets :
    slackIndicesOf (mergeModel [[1, 1]] [1, 1] true).constraints = [0, 0, 0, 0] ∧
    (mergeModel [[1, 1]] [1, 1] true).nSlack = 2 ∧
    LpVar.X 1 ∈ (mergeModel [[1, 1]] [1, 1] true).objective.map Prod.fst ∧
    LpVar.X 1 ∉ constraintVars (mergeModel [[1, 1]] [1, 1] true).constraints := by
  norm_num [mergeModel, normalizeRows, fractionalSizes, clusterConstraints, absConstraints,
    objectiveTerms, slackIndicesOf, constraintVars, LpConstr.terms, List.range_succ,
    skHarmonic, objWeights, objWeightsRaw, List.filter]
  decide

/-! ## C5: classification task expansion -/

lemma deriveClassCol_getD (col : List Cell) (cls : ℚ) (i : ℕ) :
    (deriveClassCol col cls).getD i none =
      if col.getD i none = some cls then some 1 else none := by
  rw [deriveClassCol, List.getD_eq_getElem?_getD, List.getElem?_map,
    List.getD_eq_getElem?_getD]
  cases h : col[i]? with
  | none => simp
  | some c => simp

lemma classFold_snd (task : String) (col : List Cell) (classes : List ℚ) :
    ∀ acc : Frame × List String,
      (classes.foldl (fun acc2 cls =>
        (acc2.1.setCol (task ++ "_" ++ toString cls) (deriveClassCol col cls),
         acc2.2 ++ [task ++ "_" ++ toString cls])) acc).2
        = acc.2 ++ classes.map (fun cls => task ++ "_" ++ toString cls) := by
  induction classes with
  | nil => intro acc; simp
  | cons c cs ih => intro acc; simp [ih]

/-- C5: a task column all of whose non-missing values are integral is
expanded, per distinct observed class value, into one derived balancing
column that is `1` exactly where the parent equals that class and missing
everywhere else — rows with a missing parent and rows with a different
class are both missing, never zero. Any other task is used unchanged as a
regression task (no derived column, the task name itself is balanced). -/
theorem classification_tasks_expand (df : Frame) (task : String) :
    ((dropna (df.getCol task)).all isIntegralQ = true →
      (setTasksForBalancing df [task]).2 =
        (pyUnique (dropna (df.getCol task))).map (fun cls => task ++ "_" ++ toString cls) ∧
      ∀ cls ∈ pyUnique (dropna (df.getCol task)), ∀ i : ℕ,
        ((df.getCol task).getD i none = some cls →
            (deriveClassCol (df.getCol task) cls).getD i none = some 1) ∧
        ((df.getCol task).getD i none ≠ some cls →
            (deriveClassCol (df.getCol task) cls).getD i none = none)) ∧
    ((dropna (df.getCol task)).all isIntegralQ = false →
      setTasksForBalancing df [task] = (df, [task])) := by
  constructor
  · intro hcls
    constructor
    · unfold setTasksForBalancing
      simp only [List.foldl_cons, List.foldl_nil, hcls, if_true]
      rw [classFold_snd]
      simp
    · intro cls _ i
      constructor
      · intro h
        rw [deriveClassCol_getD, if_pos h]
      · intro h
        rw [deriveClassCol_getD, if_neg h]
  · intro hreg
    simp only [setTasksForBalancing, List.foldl_cons, List.foldl_nil, hreg,
      Bool.false_eq_true, if_false, List.nil_append]

/-- Witness for C5 at a concrete classification column
`[some 1, some 0, none]`. -/
theorem classification_tasks_expand_witness :
    (setTasksForBalancing ⟨[("y", [some 1, some 0, none])]⟩ ["y"]).2 = ["y_1", "y_0"] ∧
    (deriveClassCol [some 1, some 0, none] 1).getD 0 none = some 1 ∧
    (deriveClassCol [some 1, some 0, none] 1).getD 1 none = none ∧
    (deriveClassCol [some 1, some 0, none] 1).getD 2 none = none := by
  have h := classification_tasks_expand ⟨[("y", [some 1, some 0, none])]⟩ "y"
  have h1 := h.1 (by decide)
  exact ⟨h1.1.trans (by decide),
    (h1.2 1 (by decide) 0).1 (by decide),
    (h1.2 1 (by decide) 1).2 (by decide),
    (h1.2 1 (by decide) 2).2 (by decide)⟩

/-! ## C10: default task inference and the distance column names -/

lemma pyStartswith_append_false (a s p : String)
    (h1 : a.data.head? ≠ p.data.head?) (h2 : a.data ≠ []) (h3 : p.data ≠ []) :
    pyStartswith (a ++ s) p = false := by
  unfold pyStartswith
  rw [String.data_append]
  cases ha : a.data with
  | nil => exact absurd ha h2
  | cons c1 t1 =>
    cases hp : p.data with
    | nil => exact absurd hp h3
    | cons c2 t2 =>
      rw [ha, hp] at h1
      simp only [List.head?_cons, ne_eq, Option.some.injEq] at h1
      simp [ha, hp, List.take_succ_cons, h1]

/-- C10: with the task list omitted, default inference keeps exactly the
columns that are not the SMILES column, not ignored, and do not start with
`'Split'` or `'MinIntersetDistance'`; the distance columns the program
itself writes (`'minInterSetTd'` / `'minInterSetTd_<k>'`) start with
neither reserved prefix, so on a subsequent call with tasks omitted a
previously written distance column is inferred as a task column. -/
theorem default_task_inference (columns : List String) (smilesColumn : String)
    (ig : List String) (hnd : columns.Nodup) (_hsm : smilesColumn ∈ columns) :
    (∀ c : String, c ∈ setOriginalTasks columns smilesColumn (some ig) ↔
      (c ∈ columns ∧ c ≠ smilesColumn ∧ c ∉ ig ∧
        pyStartswith c "Split" = false ∧ pyStartswith c "MinIntersetDistance" = false)) ∧
    (∀ n k : ℕ, pyStartswith (mintdColName n k) "Split" = false ∧
        pyStartswith (mintdColName n k) "MinIntersetDistance" = false) ∧
    (∀ n k : ℕ, mintdColName n k ∈ columns → mintdColName n k ≠ smilesColumn →
      mintdColName n k ∉ ig →
      mintdColName n k ∈ setOriginalTasks columns smilesColumn (some ig)) := by
  have hpre : ∀ n k : ℕ, pyStartswith (mintdColName n k) "Split" = false ∧
      pyStartswith (mintdColName n k) "MinIntersetDistance" = false := by
    intro n k
    by_cases hn : n = 1
    · simp only [mintdColName, hn, if_true]
      exact ⟨by decide, by decide⟩
    · simp only [mintdColName, hn, if_false]
      rw [pyStartswith_append_false _ _ _ (by decide) (by decide) (by decide),
        pyStartswith_append_false _ _ _ (by decide) (by decide) (by decide)]
      exact ⟨rfl, rfl⟩
  have hmem : ∀ c : String, c ∈ setOriginalTasks columns smilesColumn (some ig) ↔
      (c ∈ columns ∧ c ≠ smilesColumn ∧ c ∉ ig ∧
        pyStartswith c "Split" = false ∧ pyStartswith c "MinIntersetDistance" = false) := by
    intro c
    unfold setOriginalTasks
    simp only [List.mem_filter, decide_eq_true_eq, Bool.not_eq_eq_eq_not, Bool.not_true]
    by_cases hc : c = smilesColumn
    · subst hc
      have hne : c ∉ columns.erase c := hnd.not_mem_erase
      tauto
    · have hiff : c ∈ columns.erase smilesColumn ↔ c ∈ columns :=
        List.mem_erase_of_ne hc
      tauto
  exact ⟨hmem, hpre, fun n k h1 h2 h3 =>
    (hmem (mintdColName n k)).mpr ⟨h1, h2, h3, (hpre n k).1, (hpre n k).2⟩⟩

/-- Witness for C10: a frame whose columns include a previously written
`'minInterSetTd'` column; the inference treats it as a task. -/
theorem default_task_inference_witness :
    (["SMILES", "y", "Split", "minInterSetTd"] : List String).Nodup ∧
    "SMILES" ∈ (["SMILES", "y", "Split", "minInterSetTd"] : List String) ∧
    "minInterSetTd" ∈
      setOriginalTasks ["SMILES", "y", "Split", "minInterSetTd"] "SMILES" (some []) := by
  refine ⟨by decide, by decide, ?_⟩
  exact (default_task_inference ["SMILES", "y", "Split", "minInterSetTd"] "SMILES" []
    (by decide) (by decide)).2.2 1 0 (by decide) (by decide) (by decide)

/-! ## C4: decoding the solved model into a total mapping -/

lemma pyTile_getD (S N i : ℕ) (h : i < N * S) : (pyTile N S).getD i 0 = i % N := by
  induction S generalizing i with
  | zero => omega
  | succ S ih =>
    rw [pyTile, List.replicate_succ, List.flatten_cons]
    by_cases hi : i < N
    · rw [List.getD_append _ _ _ _ (by simpa using hi)]
      rw [List.getD_eq_getElem _ _ (by simpa using hi), List.getElem_range,
        Nat.mod_eq_of_lt hi]
    · have hN : N ≤ i := by omega
      rw [List.getD_append_right _ _ _ _ (by simpa using hN)]
      have h2 : i - N < N * S := by
        rw [Nat.mul_succ] at h; omega
      rw [List.length_range]
      rw [show (List.replicate S (List.range N)).flatten = pyTile N S from rfl]
      rw [ih _ h2, Nat.mod_eq_sub_mod hN]

lemma npRepeatSubsets_length (S N : ℕ) : (npRepeatSubsets S N).length = S * N := by
  induction S with
  | zero => simp [npRepeatSubsets]
  | succ S ih =>
    rw [npRepeatSubsets, List.range_succ, List.flatMap_append]
    rw [show (List.range S).flatMap (fun m => List.replicate N (1 + m)) = npRepeatSubsets S N
      from rfl]
    simp [ih, Nat.succ_mul]

lemma npRepeatSubsets_getD (S N i : ℕ) (h : i < N * S) :
    (npRepeatSubsets S N).getD i 0 = 1 + i / N := by
  have hN : 0 < N := by
    rcases Nat.eq_zero_or_pos N with h0 | h0
    · subst h0; omega
    · exact h0
  induction S generalizing i with
  | zero => omega
  | succ S ih =>
    have hcomm : S * N = N * S := Nat.mul_comm S N
    have hexp : N * (S + 1) = N * S + N := Nat.mul_succ N S
    rw [npRepeatSubsets, List.range_succ, List.flatMap_append]
    rw [show (List.range S).flatMap (fun m => List.replicate N (1 + m)) = npRepeatSubsets S N
      from rfl]
    by_cases hi : i < N * S
    · rw [List.getD_append _ _ _ _ (by rw [npRepeatSubsets_length]; omega)]
      exact ih i hi
    · have hge : N * S ≤ i := by omega
      rw [List.getD_append_right _ _ _ _ (by rw [npRepeatSubsets_length]; omega)]
      rw [npRepeatSubsets_length]
      have hlt : i - S * N < N := by omega
      simp only [List.flatMap_cons, List.flatMap_nil, List.append_nil]
      rw [List.getD_eq_getElem _ _ (by simpa using hlt), List.getElem_replicate]
      have : i / N = S := by
        have hi2 : i = S * N + (i - S * N) := by omega
        rw [hi2, Nat.mul_comm S N, Nat.mul_add_div hN]
        rw [Nat.div_eq_of_lt (by omega)]
        omega
      rw [this]

lemma zip_self_map {α β : Type} (l : List α) (g : α → β) :
    l.zip (l.map g) = l.map (fun a => (a, g a)) := by
  induction l with
  | nil => rfl
  | cons a t ih => simp [ih]

lemma selectedPairs_eq (N S : ℕ) (sol : ℕ → ℚ) :
    selectedPairs N S sol =
      ((List.range (N * S)).filter (fun i => sol i = 1)).map (fun i => (i, sol i)) := by
  unfold selectedPairs listBinarySolution
  rw [List.enum_eq_zip_range]
  rw [List.length_map, List.length_range]
  rw [zip_self_map, List.filter_map]
  congr 1

lemma zipped_pairs_eq (N S : ℕ) (sol : ℕ → ℚ) :
    (listInitialClusterIndices N S sol).zip (listFinalMLSubsets N S sol) =
      ((List.range (N * S)).filter (fun i => sol i = 1)).map
        (fun i => ((pyTile N S).getD i 0, (npRepeatSubsets S N).getD i 0)) := by
  unfold listInitialClusterIndices listFinalMLSubsets
  rw [List.zip_map', selectedPairs_eq, List.map_map]
  simp [Function.comp]

lemma zipped_pairs_mod_div (N S : ℕ) (sol : ℕ → ℚ) :
    (listInitialClusterIndices N S sol).zip (listFinalMLSubsets N S sol) =
      ((List.range (N * S)).filter (fun i => sol i = 1)).map
        (fun i => (i % N, 1 + i / N)) := by
  rw [zipped_pairs_eq]
  apply List.map_congr_left
  intro i hi
  have hi2 : i < N * S := by
    have := List.mem_filter.mp hi
    simpa using this.1
  rw [pyTile_getD _ _ _ hi2, npRepeatSubsets_getD _ _ _ hi2]

lemma range_mul_flatMap (N S : ℕ) :
    List.range (N * S) =
      (List.range S).flatMap (fun m => (List.range N).map (fun c => c + m * N)) := by
  induction S with
  | zero => simp
  | succ S ih =>
    rw [Nat.mul_succ, List.range_add, ih, List.range_succ, List.flatMap_append]
    simp only [List.flatMap_cons, List.flatMap_nil, List.append_nil]
    congr 1
    apply List.map_congr_left
    intro c _
    ring

lemma filter_fiber_perm {α : Type} (S : ℕ) (l : List α) (g : α → ℕ)
    (h : ∀ a ∈ l, g a < S) :
    ((List.range S).flatMap (fun m => l.filter (fun a => g a = m))).Perm l := by
  induction S generalizing l with
  | zero =>
    cases l with
    | nil => simp
    | cons a t => exact absurd (h a (by simp)) (by omega)
  | succ S ih =>
    rw [List.range_succ, List.flatMap_append]
    simp only [List.flatMap_cons, List.flatMap_nil, List.append_nil]
    have hblocks : ∀ m ∈ List.range S,
        l.filter (fun a => g a = m) =
          (l.filter (fun a => !(decide (g a = S)))).filter (fun a => g a = m) := by
      intro m hm
      rw [List.mem_range] at hm
      rw [List.filter_filter]
      apply List.filter_congr
      intro a _
      by_cases hg : g a = m
      · have hms : ¬(m = S) := by omega
        simp [hg, hms]
      · simp [hg]
    have hA : ((List.range S).flatMap (fun m => l.filter (fun a => g a = m))) =
        ((List.range S).flatMap (fun m =>
          (l.filter (fun a => !(decide (g a = S)))).filter (fun a => g a = m))) := by
      rw [List.flatMap_def, List.flatMap_def]
      congr 1
      exact List.map_congr_left hblocks
    rw [hA]
    have hlt : ∀ a ∈ l.filter (fun a => !(decide (g a = S))), g a < S := by
      intro a ha
      have := List.mem_filter.mp ha
      have h1 := h a this.1
      have h2 : ¬(g a = S) := by simpa using this.2
      omega
    have hperm1 := ih (l.filter (fun a => !(decide (g a = S)))) hlt
    have h1 := hperm1.append_right (l.filter (fun a => g a = S))
    have h2 : (l.filter (fun a => !(decide (g a = S))) ++ l.filter (fun a => g a = S)).Perm
        (l.filter (fun a => g a = S) ++ l.filter (fun a => !(decide (g a = S)))) :=
      List.perm_append_comm
    exact (h1.trans h2).trans (List.filter_append_perm (fun a => decide (g a = S)) l)

lemma sum_zero_of_nonneg (l : List ℚ) (h : ∀ v ∈ l, 0 ≤ v) (hs : l.sum = 0) :
    ∀ v ∈ l, v = 0 := by
  induction l with
  | nil => simp
  | cons a t ih =>
    rw [List.sum_cons] at hs
    have ha : 0 ≤ a := h a (by simp)
    have ht : ∀ v ∈ t, 0 ≤ v := fun v hv => h v (by simp [hv])
    have hts : 0 ≤ t.sum := List.sum_nonneg ht
    have ha0 : a = 0 := by linarith
    have hts0 : t.sum = 0 := by linarith
    intro v hv
    rcases List.mem_cons.mp hv with rfl | hv2
    · exact ha0
    · exact ih ht hts0 v hv2

lemma exists_unique_one_of_sum (l : List ℚ)
    (hb : ∀ v ∈ l, v = 0 ∨ v = 1) (hs : l.sum = 1) :
    ∃! i, i < l.length ∧ l.getD i 0 = 1 := by
  induction l with
  | nil =>
    rw [List.sum_nil] at hs
    exact absurd hs (by norm_num)
  | cons a t ih =>
    rcases hb a (by simp) with ha | ha
    · subst ha
      rw [List.sum_cons, zero_add] at hs
      obtain ⟨i, ⟨hi1, hi2⟩, hiu⟩ := ih (fun v hv => hb v (by simp [hv])) hs
      refine ⟨i + 1, ⟨by simpa using hi1, by simpa using hi2⟩, ?_⟩
      rintro (_ | j) ⟨hj1, hj2⟩
      · rw [List.getD_cons_zero] at hj2
        exact absurd hj2 (by norm_num)
      · rw [List.getD_cons_succ] at hj2
        have := hiu j ⟨by simpa using hj1, hj2⟩
        omega
    · subst ha
      rw [List.sum_cons] at hs
      have hts : t.sum = 0 := by linarith
      have htz : ∀ v ∈ t, v = 0 := by
        refine sum_zero_of_nonneg t ?_ hts
        intro v hv
        rcases hb v (by simp [hv]) with h0 | h1
        · simp [h0]
        · rw [h1]
          norm_num
      refine ⟨0, ⟨by simp, by simp⟩, ?_⟩
      rintro (_ | j) ⟨hj1, hj2⟩
      · rfl
      · rw [List.getD_cons_succ] at hj2
        have hjl : j < t.length := by simpa using hj1
        have : t.getD j 0 ∈ t := by
          rw [List.getD_eq_getElem _ _ hjl]
          exact List.getElem_mem hjl
        have := htz _ this
        rw [this] at hj2
        exact absurd hj2 (by norm_num)

lemma idx_lt {c m N S : ℕ} (hc : c < N) (hm : m < S) : c + m * N < N * S := by
  have h1 : c + m * N < (m + 1) * N := by
    rw [Nat.succ_mul]
    omega
  have h2 : (m + 1) * N ≤ S * N := Nat.mul_le_mul_right N (by omega)
  have h3 : S * N = N * S := Nat.mul_comm S N
  omega

lemma exists_assignment (N S : ℕ) (sol : ℕ → ℚ)
    (hbin : ∀ i < N * S, sol i = 0 ∨ sol i = 1)
    (hsum : ∀ c < N, ((List.range S).map (fun m => sol (c + m * N))).sum = 1) :
    ∃ f : ℕ → ℕ,
      (∀ c < N, f c < S ∧ sol (c + f c * N) = 1) ∧
      (∀ c < N, ∀ m < S, sol (c + m * N) = 1 → m = f c) := by
  have hgd : ∀ c, ∀ j < S,
      ((List.range S).map (fun m => sol (c + m * N))).getD j 0 = sol (c + j * N) := by
    intro c j hj
    rw [List.getD_eq_getElem _ _ (by simpa using hj), List.getElem_map, List.getElem_range]
  have hone : ∀ c, c < N → ∃! m, m < S ∧ sol (c + m * N) = 1 := by
    intro c hc
    have hb : ∀ v ∈ (List.range S).map (fun m => sol (c + m * N)), v = 0 ∨ v = 1 := by
      intro v hv
      obtain ⟨m, hm, rfl⟩ := List.mem_map.mp hv
      rw [List.mem_range] at hm
      exact hbin _ (idx_lt hc hm)
    obtain ⟨i, ⟨hi1, hi2⟩, hiu⟩ := exists_unique_one_of_sum _ hb (hsum c hc)
    have hiS : i < S := by simpa using hi1
    refine ⟨i, ⟨hiS, by rw [← hgd c i hiS]; exact hi2⟩, ?_⟩
    rintro m ⟨hm1, hm2⟩
    exact hiu m ⟨by simpa using hm1, by rw [hgd c m hm1]; exact hm2⟩
  classical
  refine ⟨fun c => if hc : c < N then (hone c hc).choose else 0, ?_, ?_⟩
  · intro c hc
    simp only [dif_pos hc]
    exact (hone c hc).choose_spec.1
  · intro c hc m hm hsol
    simp only [dif_pos hc]
    exact (hone c hc).choose_spec.2 m ⟨hm, hsol⟩

lemma extractMapping_eq (N S : ℕ) (sol : ℕ → ℚ) (f : ℕ → ℕ)
    (hf : ∀ c < N, f c < S ∧ sol (c + f c * N) = 1)
    (huniq : ∀ c < N, ∀ m < S, sol (c + m * N) = 1 → m = f c) :
    extractMapping N S sol = (List.range N).map (fun c => 1 + f c) := by
  have hpairs :
      (listInitialClusterIndices N S sol).zip (listFinalMLSubsets N S sol) =
        ((List.range S).flatMap (fun m =>
          (List.range N).filter (fun c => f c = m))).map (fun c => (c, 1 + f c)) := by
    rw [zipped_pairs_mod_div, range_mul_flatMap]
    rw [List.flatMap_def, List.filter_flatten, List.map_map]
    rw [List.map_flatMap, List.flatMap_def]
    rw [List.map_flatten, List.map_map]
    congr 1
    apply List.map_congr_left
    intro m hm
    rw [List.mem_range] at hm
    simp only [Function.comp]
    rw [List.filter_map, List.map_map]
    have hfiltereq :
        (List.range N).filter ((fun i => decide (sol i = 1)) ∘ (fun c => c + m * N)) =
          (List.range N).filter (fun c => f c = m) := by
      apply List.filter_congr
      intro c hcr
      rw [List.mem_range] at hcr
      simp only [Function.comp, decide_eq_decide]
      constructor
      · intro hsol
        exact (huniq c hcr m hm hsol).symm
      · intro hfc
        have h2 := (hf c hcr).2
        rw [hfc] at h2
        exact h2
    rw [hfiltereq]
    apply List.map_congr_left
    intro c hc
    have hcmem := List.mem_filter.mp hc
    have hcr : c < N := by simpa using hcmem.1
    have hfc : f c = m := by simpa using hcmem.2
    have hN : 0 < N := by omega
    have hmod : (c + m * N) % N = c := by
      rw [Nat.add_mul_mod_self_right, Nat.mod_eq_of_lt hcr]
    have hdiv : (c + m * N) / N = m := by
      rw [Nat.add_mul_div_right _ _ hN, Nat.div_eq_of_lt hcr, Nat.zero_add]
    simp only [Function.comp]
    rw [hmod, hdiv, hfc]
  have hperm : ((listInitialClusterIndices N S sol).zip (listFinalMLSubsets N S sol)).Perm
      ((List.range N).map (fun c => (c, 1 + f c))) := by
    rw [hpairs]
    apply List.Perm.map
    exact filter_fiber_perm S (List.range N) f
      (fun c hc => (hf c (by simpa using hc)).1)
  have hsortedT : List.Sorted tupleLe ((List.range N).map (fun c => (c, 1 + f c))) := by
    apply List.Pairwise.map
    · intro a b hab
      exact Or.inl hab
    · exact List.pairwise_lt_range N
  have hsortkey := List.sorted_insertionSort tupleLe
    ((listInitialClusterIndices N S sol).zip (listFinalMLSubsets N S sol))
  have hpermkey := List.perm_insertionSort tupleLe
    ((listInitialClusterIndices N S sol).zip (listFinalMLSubsets N S sol))
  have heq : ((listInitialClusterIndices N S sol).zip
      (listFinalMLSubsets N S sol)).insertionSort tupleLe =
        (List.range N).map (fun c => (c, 1 + f c)) :=
    List.eq_of_perm_of_sorted (hpermkey.trans hperm) hsortkey hsortedT
  rw [extractMapping, heq, List.map_map]
  rfl

lemma setFoldVal_length {α : Type} (arr : List α) (idx : List ℕ) (val : ℕ → α) :
    (setFoldVal arr idx val).length = arr.length := by
  induction idx generalizing arr with
  | nil => rfl
  | cons a t ih =>
    rw [setFoldVal, List.foldl_cons,
      show List.foldl (fun acc r => acc.set r (val r)) (arr.set a (val a)) t =
        setFoldVal (arr.set a (val a)) t val from rfl, ih, List.length_set]

lemma setFoldVal_getD_not_mem {α : Type} (arr : List α) (idx : List ℕ) (val : ℕ → α)
    (r : ℕ) (d : α) (h : r ∉ idx) :
    (setFoldVal arr idx val).getD r d = arr.getD r d := by
  induction idx generalizing arr with
  | nil => rfl
  | cons a t ih =>
    have hra : a ≠ r := by
      intro e
      exact h (by simp [e])
    rw [setFoldVal, List.foldl_cons,
      show List.foldl (fun acc r => acc.set r (val r)) (arr.set a (val a)) t =
        setFoldVal (arr.set a (val a)) t val from rfl,
      ih _ (fun hm => h (by simp [hm])),
      List.getD_eq_getElem?_getD, List.getD_eq_getElem?_getD, List.getElem?_set_ne hra]

lemma setFoldVal_getD_mem {α : Type} (arr : List α) (idx : List ℕ) (val : ℕ → α)
    (r : ℕ) (d : α) (h : r ∈ idx) (hr : r < arr.length) :
    (setFoldVal arr idx val).getD r d = val r := by
  induction idx generalizing arr with
  | nil => simp at h
  | cons a t ih =>
    rw [setFoldVal, List.foldl_cons,
      show List.foldl (fun acc r => acc.set r (val r)) (arr.set a (val a)) t =
        setFoldVal (arr.set a (val a)) t val from rfl]
    by_cases hrt : r ∈ t
    · exact ih _ hrt (by rw [List.length_set]; exact hr)
    · have hra : r = a := by
        rcases List.mem_cons.mp h with e | e
        · exact e
        · exact absurd e hrt
      subst hra
      rw [setFoldVal_getD_not_mem _ _ _ _ _ hrt, List.getD_eq_getElem?_getD,
        List.getElem?_set_self hr]
      rfl

lemma blocksFold_getD_not_mem {α β : Type} (L : List β) (bIdx : β → List ℕ)
    (bVal : β → ℕ → α) (init : List α) (r : ℕ) (d : α)
    (h : ∀ b ∈ L, r ∉ bIdx b) :
    (L.foldl (fun acc b => setFoldVal acc (bIdx b) (bVal b)) init).getD r d =
      init.getD r d := by
  induction L generalizing init with
  | nil => rfl
  | cons b t ih =>
    rw [List.foldl_cons, ih _ (fun b2 hb2 => h b2 (by simp [hb2]))]
    exact setFoldVal_getD_not_mem _ _ _ _ _ (h b (by simp))

lemma blocksFold_getD_mem {α β : Type} (L : List β) (bIdx : β → List ℕ)
    (bVal : β → ℕ → α) (init : List α) (r : ℕ) (d : α) (b0 : β)
    (hb0 : b0 ∈ L) (hrb : r ∈ bIdx b0) (hr : r < init.length)
    (hcons : ∀ b ∈ L, r ∈ bIdx b → bVal b r = bVal b0 r) :
    (L.foldl (fun acc b => setFoldVal acc (bIdx b) (bVal b)) init).getD r d =
      bVal b0 r := by
  induction L generalizing init b0 with
  | nil => simp at hb0
  | cons b t ih =>
    rw [List.foldl_cons]
    by_cases hex : ∃ b2 ∈ t, r ∈ bIdx b2
    · obtain ⟨b2, hb2t, hrb2⟩ := hex
      have hcons2 : ∀ b3 ∈ t, r ∈ bIdx b3 → bVal b3 r = bVal b2 r := by
        intro b3 hb3 hr3
        rw [hcons b3 (by simp [hb3]) hr3, ← hcons b2 (by simp [hb2t]) hrb2]
      rw [ih _ b2 hb2t hrb2 (by rw [setFoldVal_length]; exact hr) hcons2]
      exact hcons b2 (by simp [hb2t]) hrb2
    · push_neg at hex
      rw [blocksFold_getD_not_mem t bIdx bVal _ r d hex]
      have hrb0 : r ∈ bIdx b := by
        rcases List.mem_cons.mp hb0 with e | e
        · exact e ▸ hrb
        · exact absurd hrb (hex b0 e)
      rw [setFoldVal_getD_mem _ _ _ _ _ hrb0 hr]
      exact hcons b (by simp) hrb0

/-- C4: for a feasible binary solve (each variable 0/1 and, for every
cluster, the subset indicators sum to one) with `S ≤ N`, the decoded
mapping is total and a function — one entry per initial cluster, entry `c`
being `1 + (the unique subset chosen for cluster c)`, an integer in
`[1..S]` — and every per-row value written into the split column is
exactly the mapped subset id minus one, an integer in `[0..S-1]`. -/
theorem mapping_total_and_split_values (N S : ℕ) (sol : ℕ → ℚ)
    (clusters : List (List ℕ)) (nRows : ℕ)
    (hSN : S ≤ N)
    (hbin : ∀ i < N * S, sol i = 0 ∨ sol i = 1)
    (hsum : ∀ c < N, ((List.range S).map (fun m => sol (c + m * N))).sum = 1)
    (hclen : clusters.length = N)
    (hdisj : ∀ c1 < N, ∀ c2 < N, ∀ r : ℕ,
      r ∈ clusters.getD c1 [] → r ∈ clusters.getD c2 [] → c1 = c2)
    (hrows : ∀ c < N, ∀ r ∈ clusters.getD c [], r < nRows) :
    ∃ f : ℕ → ℕ,
      (∀ c < N, f c < S ∧ sol (c + f c * N) = 1) ∧
      extractMapping N S sol = (List.range N).map (fun c => 1 + f c) ∧
      (extractMapping N S sol).length = N ∧
      (∀ v ∈ extractMapping N S sol, 1 ≤ v ∧ v ≤ S) ∧
      (∀ c < N, ∀ r ∈ clusters.getD c [],
        (writeSplitColumn nRows clusters (extractMapping N S sol)).getD r none =
          some (((extractMapping N S sol).getD c 0 : ℚ) - 1) ∧
        ∃ k < S, (writeSplitColumn nRows clusters (extractMapping N S sol)).getD r none =
          some ((k : ℚ))) := by
  obtain ⟨f, hf, huniq⟩ := exists_assignment N S sol hbin hsum
  have hmap := extractMapping_eq N S sol f hf huniq
  have hgetD : ∀ c < N, (extractMapping N S sol).getD c 0 = 1 + f c := by
    intro c hc
    rw [hmap, List.getD_eq_getElem _ _ (by simpa using hc), List.getElem_map,
      List.getElem_range]
  refine ⟨f, hf, hmap, ?_, ?_, ?_⟩
  · rw [hmap]; simp
  · intro v hv
    rw [hmap] at hv
    obtain ⟨c, hc, rfl⟩ := List.mem_map.mp hv
    rw [List.mem_range] at hc
    have := (hf c hc).1
    omega
  · intro c hc r hr
    have hb0mem : (c, clusters.getD c []) ∈ clusters.enum := by
      rw [List.mem_enum_iff_getElem?]
      have hc2 : c < clusters.length := by omega
      rw [List.getElem?_eq_getElem hc2]
      rw [List.getD_eq_getElem _ _ hc2]
    have hwrite :
        (writeSplitColumn nRows clusters (extractMapping N S sol)).getD r none =
          some (((extractMapping N S sol).getD c 0 : ℚ) - 1) := by
      rw [writeSplitColumn]
      have := blocksFold_getD_mem (α := Cell) (β := ℕ × List ℕ) clusters.enum
        (fun p => p.2)
        (fun p _ => some (((extractMapping N S sol).getD p.1 0 : ℚ) - 1))
        (List.replicate nRows none) r none (c, clusters.getD c []) hb0mem hr
        (by rw [List.length_replicate]; exact hrows c hc r hr)
        ?_
      · exact this
      · intro p hp hrp
        have hp2 := List.mem_enum_iff_getElem?.mp hp
        have hplen : p.1 < clusters.length := by
          by_contra hcon
          rw [List.getElem?_eq_none (by omega)] at hp2
          exact Option.noConfusion hp2
        have hpeq : p.2 = clusters.getD p.1 [] := by
          rw [List.getD_eq_getElem _ _ hplen]
          rw [List.getElem?_eq_getElem hplen] at hp2
          exact (Option.some_inj.mp hp2).symm
        have hp1c : p.1 = c := by
          apply hdisj p.1 (by omega) c hc r
          · rw [← hpeq]; exact hrp
          · exact hr
        simp only [hp1c]
    refine ⟨hwrite, ⟨f c, (hf c hc).1, ?_⟩⟩
    rw [hwrite, hgetD c hc]
    congr 1
    push_cast
    ring

/-- Witness for C4 at `N = S = 1`, the all-ones solution, one cluster
holding row 0. -/
theorem mapping_total_and_split_values_witness :
    ∃ f : ℕ → ℕ,
      (∀ c < 1, f c < 1 ∧ (1 : ℚ) = 1) ∧
      extractMapping 1 1 (fun _ => (1 : ℚ)) = (List.range 1).map (fun c => 1 + f c) ∧
      (extractMapping 1 1 (fun _ => (1 : ℚ))).length = 1 ∧
      (∀ v ∈ extractMapping 1 1 (fun _ => (1 : ℚ)), 1 ≤ v ∧ v ≤ 1) ∧
      (∀ c < 1, ∀ r ∈ ([[0]] : List (List ℕ)).getD c [],
        (writeSplitColumn 1 [[0]] (extractMapping 1 1 (fun _ => (1 : ℚ)))).getD r none =
          some (((extractMapping 1 1 (fun _ => (1 : ℚ))).getD c 0 : ℚ) - 1) ∧
        ∃ k : ℕ, k < 1 ∧
          (writeSplitColumn 1 [[0]] (extractMapping 1 1 (fun _ => (1 : ℚ)))).getD r none =
            some ((k : ℚ))) :=
  mapping_total_and_split_values 1 1 (fun _ => 1) [[0]] 1 (by decide) (by decide)
    (by intro c hc; simp) (by decide)
    (by intro c1 h1 c2 h2 r hr1 hr2; omega) (by decide)

/-! ## C7: minimum inter-subset distances -/

/-- The value the code stores at row `i` during the iteration for subset
value `j`. -/
def mdValFor (split : List ℚ) (sim : ℕ → ℕ → ℚ) (j : ℚ) (i : ℕ) : ℚ :=
  1 - (((othersOf split j).map (fun k => sim i k)).max?).getD 0

lemma pyUnique_aux_mem {α : Type} [DecidableEq α] (l : List α) (acc : List α) (a : α) :
    (a ∈ l.foldl (fun acc x => if x ∈ acc then acc else acc ++ [x]) acc) ↔
      a ∈ acc ∨ a ∈ l := by
  induction l generalizing acc with
  | nil => simp
  | cons x t ih =>
    rw [List.foldl_cons]
    by_cases hx : x ∈ acc
    · rw [if_pos hx, ih]
      constructor
      · rintro (h | h)
        · exact Or.inl h
        · exact Or.inr (by simp [h])
      · rintro (h | h)
        · exact Or.inl h
        · rcases List.mem_cons.mp h with rfl | h2
          · exact Or.inl hx
          · exact Or.inr h2
    · rw [if_neg hx, ih]
      constructor
      · rintro (h | h)
        · rcases List.mem_append.mp h with h2 | h2
          · exact Or.inl h2
          · simp only [List.mem_singleton] at h2
            exact Or.inr (by simp [h2])
        · exact Or.inr (by simp [h])
      · rintro (h | h)
        · exact Or.inl (by simp [h])
        · rcases List.mem_cons.mp h with rfl | h2
          · exact Or.inl (by simp)
          · exact Or.inr h2

lemma pyUnique_mem {α : Type} [DecidableEq α] (l : List α) (a : α) :
    a ∈ pyUnique l ↔ a ∈ l := by
  rw [pyUnique, pyUnique_aux_mem]
  simp

lemma othersOf_eq (split : List ℚ) (j : ℚ) :
    othersOf split j = (List.range split.length).filter (fun k => split.getD k 0 ≠ j) := by
  unfold othersOf
  apply List.filter_congr
  intro k hk
  rw [decide_eq_decide]
  constructor
  · intro h hsplit
    exact h (List.mem_filter.mpr ⟨hk, by simp only [decide_eq_true_eq]; exact hsplit⟩)
  · intro h hmem
    exact h (by simpa using (List.mem_filter.mp hmem).2)

lemma mdInnerFold_some (others : List ℕ) (sim : ℕ → ℕ → ℚ) (idx : List ℕ) (arr : List ℚ)
    (hmax : ∀ i ∈ idx, ((others.map (fun k => sim i k)).max?).isSome) :
    idx.foldl (mdInnerStep others sim) (some arr) =
      some (setFoldVal arr idx
        (fun i => 1 - ((others.map (fun k => sim i k)).max?).getD 0)) := by
  induction idx generalizing arr with
  | nil => rfl
  | cons i t ih =>
    rw [List.foldl_cons]
    rcases hmx : (others.map (fun k => sim i k)).max? with _ | mx
    · exact absurd (hmax i (by simp)) (by simp [hmx])
    · have hstep : mdInnerStep others sim (some arr) i = some (arr.set i (1 - mx)) := by
        simp only [mdInnerStep, hmx]
      rw [hstep, ih _ (fun i2 h2 => hmax i2 (by simp [h2]))]
      have hval : 1 - ((others.map (fun k => sim i k)).max?).getD 0 = 1 - mx := by
        rw [hmx]
        rfl
      rw [← hval]
      rfl

lemma mdOuterFold_some (split : List ℚ) (sim : ℕ → ℕ → ℚ) (U : List ℚ) (arr : List ℚ)
    (hmax : ∀ j ∈ U, ∀ i ∈ refIdxOf split j,
      (((othersOf split j).map (fun k => sim i k)).max?).isSome) :
    U.foldl (mdOuterStep split sim) (some arr) =
      some (U.foldl
        (fun acc j => setFoldVal acc (refIdxOf split j) (mdValFor split sim j)) arr) := by
  induction U generalizing arr with
  | nil => rfl
  | cons j t ih =>
    rw [List.foldl_cons, List.foldl_cons]
    have hstep : mdOuterStep split sim (some arr) j =
        some (setFoldVal arr (refIdxOf split j) (mdValFor split sim j)) := by
      simp only [mdOuterStep]
      exact mdInnerFold_some _ _ _ _ (hmax j (by simp))
    rw [hstep, ih _ (fun j2 h2 i h3 => hmax j2 (by simp [h2]) i h3)]

lemma blocksFold_length {α β : Type} (L : List β) (bIdx : β → List ℕ)
    (bVal : β → ℕ → α) (init : List α) :
    (L.foldl (fun acc b => setFoldVal acc (bIdx b) (bVal b)) init).length =
      init.length := by
  induction L generalizing init with
  | nil => rfl
  | cons b t ih =>
    rw [List.foldl_cons, ih, setFoldVal_length]

/-- C7: whenever at least two subsets are non-empty, the distance column is
defined (`some`) and for every row `i` it holds exactly
`1 - max` pairwise similarity between row `i` and the rows assigned to a
different subset. -/
theorem min_interset_distance_matches (split : List ℚ) (sim : ℕ → ℕ → ℚ)
    (htwo : ∃ a, a < split.length ∧ ∃ b, b < split.length ∧
      split.getD a 0 ≠ split.getD b 0) :
    ∃ ds : List ℚ,
      computeMinInterSetTanimotoDistances split sim = some ds ∧
      ds.length = split.length ∧
      ∀ i < split.length, ∃ mx,
        (((List.range split.length).filter
            (fun k => split.getD k 0 ≠ split.getD i 0)).map (fun k => sim i k)).max? =
          some mx ∧
        ds.getD i 0 = 1 - mx := by
  obtain ⟨a, ha, b, hb, hab⟩ := htwo
  have hothers : ∀ j ∈ pyUnique split, othersOf split j ≠ [] := by
    intro j _ hempty
    by_cases hja : split.getD a 0 = j
    · have hkb : split.getD b 0 ≠ j := by
        rw [← hja]
        exact (Ne.symm hab)
      have hmem : b ∈ othersOf split j := by
        rw [othersOf_eq]
        exact List.mem_filter.mpr ⟨by simpa using hb, by simpa using hkb⟩
      rw [hempty] at hmem
      simp at hmem
    · have hmem : a ∈ othersOf split j := by
        rw [othersOf_eq]
        exact List.mem_filter.mpr ⟨by simpa using ha, by simpa using hja⟩
      rw [hempty] at hmem
      simp at hmem
  have hmax : ∀ j ∈ pyUnique split, ∀ i ∈ refIdxOf split j,
      (((othersOf split j).map (fun k => sim i k)).max?).isSome := by
    intro j hj i _
    rw [Option.isSome_iff_ne_none]
    intro hnone
    rw [List.max?_eq_none_iff, List.map_eq_nil_iff] at hnone
    exact hothers j hj hnone
  have hrun := mdOuterFold_some split sim (pyUnique split)
    (List.replicate split.length 0) hmax
  have hC : computeMinInterSetTanimotoDistances split sim =
      some ((pyUnique split).foldl
        (fun acc j => setFoldVal acc (refIdxOf split j) (mdValFor split sim j))
        (List.replicate split.length 0)) := by
    rw [computeMinInterSetTanimotoDistances]
    exact hrun
  refine ⟨_, hC, ?_, ?_⟩
  · rw [blocksFold_length]
    exact List.length_replicate _ _
  · intro i hi
    have hb0mem : split.getD i 0 ∈ pyUnique split := by
      rw [pyUnique_mem]
      rw [List.getD_eq_getElem _ _ hi]
      exact List.getElem_mem hi
    have hrb : i ∈ refIdxOf split (split.getD i 0) :=
      List.mem_filter.mpr ⟨by simpa using hi, by simp⟩
    have hds := blocksFold_getD_mem (α := ℚ) (β := ℚ) (pyUnique split)
      (refIdxOf split) (mdValFor split sim) (List.replicate split.length 0) i 0
      (split.getD i 0) hb0mem hrb (by simpa using hi) ?_
    · obtain ⟨mx, hmx⟩ := Option.isSome_iff_exists.mp
        (hmax (split.getD i 0) hb0mem i hrb)
      refine ⟨mx, ?_, ?_⟩
      · rw [← othersOf_eq]
        exact hmx
      · rw [hds, mdValFor, hmx]
        rfl
    · intro j hj hrij
      have := List.mem_filter.mp hrij
      have hji : split.getD i 0 = j := by simpa using this.2
      rw [hji]

/-- Witness for C7: two rows in two different subsets, constant similarity. -/
theorem min_interset_distance_matches_witness :
    (∃ a, a < ([0, 1] : List ℚ).length ∧ ∃ b, b < ([0, 1] : List ℚ).length ∧
      ([0, 1] : List ℚ).getD a 0 ≠ ([0, 1] : List ℚ).getD b 0) ∧
    ∃ ds : List ℚ,
      computeMinInterSetTanimotoDistances [0, 1] (fun _ _ => 0) = some ds ∧
      ds.length = ([0, 1] : List ℚ).length ∧
      ∀ i < ([0, 1] : List ℚ).length, ∃ mx,
        (((List.range ([0, 1] : List ℚ).length).filter
            (fun k => ([0, 1] : List ℚ).getD k 0 ≠ ([0, 1] : List ℚ).getD i 0)).map
          (fun _ => (0 : ℚ))).max? = some mx ∧
        ds.getD i 0 = 1 - mx :=
  ⟨⟨0, by decide, 1, by decide, by decide⟩,
   min_interset_distance_matches [0, 1] (fun _ _ => 0)
     ⟨0, by decide, 1, by decide, by decide⟩⟩

/-! ## C6: the multi-split configuration guard -/

/-- C6: with `n_splits > 1` and either precomputed clusters or a strategy
that does not support re-seeding, `__call__` raises the configuration
error immediately: the trace is empty — no clustering, tabulation or
solving has happened — and the caller's frame is untouched. -/
theorem multisplit_config_errors (runMethod : ClusteringMethod → ℕ → List (List ℕ))
    (solver : LpModel → ℕ → ℚ) (sim : ℕ → ℕ → ℚ) (cfg : Config) (data : Frame)
    (smilesColumn : String) (tasks ignoreColumns : Option (List String))
    (hn : 1 < cfg.nSplits) :
    (∀ cs, cfg.source = .precomputed cs →
      runCall runMethod solver sim cfg data smilesColumn tasks ignoreColumns =
        ⟨[], .error .multiSplitPrecomputed, data⟩) ∧
    (∀ m, cfg.source = .strategy m → m.reseedable = false →
      runCall runMethod solver sim cfg data smilesColumn tasks ignoreColumns =
        ⟨[], .error (.multiSplitMethod m), data⟩) := by
  constructor
  · intro cs hsrc
    have hchk : multiSplitCheck cfg = some .multiSplitPrecomputed := by
      rw [multiSplitCheck, if_pos hn, hsrc]
    rw [runCall, hchk]
  · intro m hsrc hm
    have hchk : multiSplitCheck cfg = some (.multiSplitMethod m) := by
      rw [multiSplitCheck, if_pos hn, hsrc]
      simp [hm]
    rw [runCall, hchk]

/-- Witness for C6: precomputed clusters together with `n_splits = 2`. -/
theorem multisplit_config_errors_witness :
    runCall (fun _ _ => []) (fun _ _ => 0) (fun _ _ => 0)
        ⟨[1], .precomputed [[0]], 2, true, false⟩ ⟨[]⟩ "SMILES" none none =
      ⟨[], .error .multiSplitPrecomputed, ⟨[]⟩⟩ :=
  (multisplit_config_errors (fun _ _ => []) (fun _ _ => 0) (fun _ _ => 0)
    ⟨[1], .precomputed [[0]], 2, true, false⟩ ⟨[]⟩ "SMILES" none none
    (by decide)).1 [[0]] rfl

/-! ## C3: where the `S > N` check happens -/

lemma normalized_head_length (df : Frame) (tasks : List String)
    (clusters : List (List ℕ)) :
    ((normalizeRows (computeTasksPerCluster df tasks clusters)).headD []).length =
      clusters.length := by
  simp [normalizeRows, computeTasksPerCluster]

lemma runStep_foldl_error (runMethod : ClusteringMethod → ℕ → List (List ℕ))
    (solver : LpModel → ℕ → ℚ) (sim : ℕ → ℕ → ℚ) (cfg : Config)
    (balancing : List String) (l : List ℕ) (tr : List Effect) (e : SplitError) :
    l.foldl (runStep runMethod solver sim cfg balancing) (tr, .error e) =
      (tr, .error e) := by
  induction l with
  | nil => rfl
  | cons k t ih =>
    rw [List.foldl_cons]
    exact ih

/-- C3 counterexample: with a clustering strategy producing one cluster and
two requested subsets, the call does raise the configuration error, but
only after clustering (and tabulation) ran: the trace contains the
clustering effect, refuting "aborting before any clustering work". -/
theorem eager_check_counterexample :
    ¬ ((runCall (fun _ _ => [[0]]) (fun _ _ => 0) (fun _ _ => 0)
          ⟨[1, 1], .strategy .maxMin, 1, true, false⟩
          ⟨[("SMILES", [none]), ("y", [some 1])]⟩ "SMILES" (some ["y"]) none).result =
        .error .tooManySubsets ∧
      Effect.clusterE ∉
        (runCall (fun _ _ => [[0]]) (fun _ _ => 0) (fun _ _ => 0)
          ⟨[1, 1], .strategy .maxMin, 1, true, false⟩
          ⟨[("SMILES", [none]), ("y", [some 1])]⟩ "SMILES" (some ["y"]) none).trace) := by
  intro h
  exact h.2 (by decide)

/-- C3 amended: when the requested subset count exceeds the number of
clusters of the first iteration, the call raises the configuration error,
but the check happens inside the merge step — after clustering and
tabulation, before any solver invocation: the trace is exactly
`[clusterE, tabulateE]` and contains no solve effect. -/
theorem too_many_subsets_checked_in_merge
    (runMethod : ClusteringMethod → ℕ → List (List ℕ))
    (solver : LpModel → ℕ → ℚ) (sim : ℕ → ℕ → ℚ) (cfg : Config) (data : Frame)
    (smilesColumn : String) (tasks ignoreColumns : Option (List String))
    (m : ClusteringMethod)
    (hsrc : cfg.source = .strategy m)
    (hrs : 1 < cfg.nSplits → m.reseedable = true)
    (hn : 0 < cfg.nSplits)
    (hSN : cfg.sizes.length > (runMethod m 0).length) :
    (runCall runMethod solver sim cfg data smilesColumn tasks ignoreColumns).trace =
      [Effect.clusterE, Effect.tabulateE] ∧
    (runCall runMethod solver sim cfg data smilesColumn tasks ignoreColumns).result =
      .error .tooManySubsets ∧
    Effect.solveE ∉
      (runCall runMethod solver sim cfg data smilesColumn tasks ignoreColumns).trace := by
  have hchk : multiSplitCheck cfg = none := by
    rw [multiSplitCheck]
    by_cases h1 : 1 < cfg.nSplits
    · rw [if_pos h1, hsrc]
      simp [hrs h1]
    · rw [if_neg h1]
  have hmerge : ∀ df : Frame, ∀ bal : List String,
      mergeClustersWithBalancingMapping solver
        (computeTasksPerCluster df bal (runMethod m 0)) cfg.sizes cfg.equalWeight =
        .error "The requested number of new clusters to make cannot be larger than the initial number of clusters." := by
    intro df bal
    rw [mergeClustersWithBalancingMapping]
    rw [if_pos (by rw [normalized_head_length]; exact hSN)]
  have hiter : ∀ df : Frame, ∀ bal : List String,
      runIteration runMethod solver sim cfg bal 0 df =
        ([Effect.clusterE, Effect.tabulateE], .error .tooManySubsets) := by
    intro df bal
    rw [runIteration]
    simp only [hsrc, hmerge df bal]
    rfl
  obtain ⟨k, hk⟩ : ∃ k, cfg.nSplits = k + 1 := ⟨cfg.nSplits - 1, by omega⟩
  have hfold : ∀ df : Frame, ∀ bal : List String,
      (List.range cfg.nSplits).foldl (runStep runMethod solver sim cfg bal)
          ([], .ok df) =
        ([Effect.clusterE, Effect.tabulateE], .error .tooManySubsets) := by
    intro df bal
    rw [hk, List.range_succ_eq_map, List.foldl_cons]
    have hstep0 : runStep runMethod solver sim cfg bal ([], .ok df) 0 =
        ([Effect.clusterE, Effect.tabulateE], .error .tooManySubsets) := by
      simp only [runStep, hiter df bal]
      rfl
    rw [hstep0, runStep_foldl_error]
  have hcall : runCall runMethod solver sim cfg data smilesColumn tasks ignoreColumns =
      ⟨[Effect.clusterE, Effect.tabulateE], .error .tooManySubsets, data⟩ := by
    simp only [runCall, hchk, hfold]
  rw [hcall]
  refine ⟨rfl, rfl, ?_⟩
  show Effect.solveE ∉ [Effect.clusterE, Effect.tabulateE]
  decide

/-- Witness for C3 (amended): one cluster, two target sizes. -/
theorem too_many_subsets_checked_in_merge_witness :
    (runCall (fun _ _ => [[0]]) (fun _ _ => 0) (fun _ _ => 0)
        ⟨[1, 1], .strategy .maxMin, 1, true, false⟩
        ⟨[("SMILES", [none]), ("y", [some 1])]⟩ "SMILES" (some ["y"]) none).trace =
      [Effect.clusterE, Effect.tabulateE] ∧
    (runCall (fun _ _ => [[0]]) (fun _ _ => 0) (fun _ _ => 0)
        ⟨[1, 1], .strategy .maxMin, 1, true, false⟩
        ⟨[("SMILES", [none]), ("y", [some 1])]⟩ "SMILES" (some ["y"]) none).result =
      .error .tooManySubsets ∧
    Effect.solveE ∉
      (runCall (fun _ _ => [[0]]) (fun _ _ => 0) (fun _ _ => 0)
        ⟨[1, 1], .strategy .maxMin, 1, true, false⟩
        ⟨[("SMILES", [none]), ("y", [some 1])]⟩ "SMILES" (some ["y"]) none).trace :=
  too_many_subsets_checked_in_merge (fun _ _ => [[0]]) (fun _ _ => 0) (fun _ _ => 0)
    ⟨[1, 1], .strategy .maxMin, 1, true, false⟩
    ⟨[("SMILES", [none]), ("y", [some 1])]⟩ "SMILES" (some ["y"]) none
    .maxMin rfl (fun _ => rfl) (by decide) (by decide)

/-! ## C8: the caller's frame and the synthetic columns -/

lemma dropCols_not_mem (f : Frame) (names : List String) (c : String)
    (h : c ∈ names) : c ∉ (f.dropCols names).names := by
  intro hc
  rw [Frame.dropCols, Frame.names] at hc
  obtain ⟨p, hp, rfl⟩ := List.mem_map.mp hc
  have h2 := (List.mem_filter.mp hp).2
  simp only [decide_not, Bool.not_eq_eq_eq_not, Bool.not_true, decide_eq_false_iff_not] at h2
  exact h2 h

lemma runCall_caller (runMethod : ClusteringMethod → ℕ → List (List ℕ))
    (solver : LpModel → ℕ → ℚ) (sim : ℕ → ℕ → ℚ) (cfg : Config) (data : Frame)
    (smilesColumn : String) (tasks ignoreColumns : Option (List String)) :
    (runCall runMethod solver sim cfg data smilesColumn tasks ignoreColumns).caller =
      data := by
  unfold runCall
  split
  · rfl
  · split <;> rfl

/-- C8: the caller's dataframe is copied on entry and threaded through the
call untouched (every subsequent operation writes only the copy), and on a
successful run every synthetic balancing column that is not one of the
user's original task names is dropped from the returned frame. -/
theorem caller_untouched_and_balancing_dropped
    (runMethod : ClusteringMethod → ℕ → List (List ℕ))
    (solver : LpModel → ℕ → ℚ) (sim : ℕ → ℕ → ℚ) (cfg : Config) (data : Frame)
    (smilesColumn : String) (tasks ignoreColumns : Option (List String)) (out : Frame)
    (hok : (runCall runMethod solver sim cfg data smilesColumn tasks ignoreColumns).result =
      .ok out) :
    (runCall runMethod solver sim cfg data smilesColumn tasks ignoreColumns).caller =
      data ∧
    ∀ name,
      name ∈ (setTasksForBalancing data
        (originalTasksOf data smilesColumn tasks ignoreColumns)).2 →
      name ∉ originalTasksOf data smilesColumn tasks ignoreColumns →
      name ∉ out.names := by
  refine ⟨runCall_caller _ _ _ _ _ _ _ _, ?_⟩
  intro name hbal horig
  unfold runCall at hok
  split at hok
  · simp at hok
  · split at hok
    · simp at hok
    · simp only [Except.ok.injEq] at hok
      rw [← hok]
      apply dropCols_not_mem
      exact List.mem_filter.mpr ⟨hbal, by simpa using horig⟩

/-- Witness for C8: a one-row frame with one classification task; the
synthetic column `y_1` is created for balancing and is absent from the
returned frame, and the caller's frame is untouched. -/
theorem caller_untouched_and_balancing_dropped_witness :
    (runCall (fun _ _ => []) (fun _ _ => 0) (fun _ _ => 0)
        ⟨[1], .precomputed [[0]], 1, true, false⟩
        ⟨[("SMILES", [none]), ("y", [some 1])]⟩ "SMILES" (some ["y"]) none).caller =
      ⟨[("SMILES", [none]), ("y", [some 1])]⟩ ∧
    "y_1" ∉ (Frame.mk [("SMILES", [none]), ("y", [some 1]),
      ("Split", [some (((0 : ℕ) : ℚ) - 1)])]).names := by
  have h := caller_untouched_and_balancing_dropped (fun _ _ => []) (fun _ _ => 0)
    (fun _ _ => 0) ⟨[1], .precomputed [[0]], 1, true, false⟩
    ⟨[("SMILES", [none]), ("y", [some 1])]⟩ "SMILES" (some ["y"]) none
    ⟨[("SMILES", [none]), ("y", [some 1]), ("Split", [some (((0 : ℕ) : ℚ) - 1)])]⟩ rfl
  exact ⟨h.1, h.2 "y_1" (by decide) (by decide)⟩

end GbmtSplits
